import Mathlib

/-!
Verification of the prime-summation programs `SumPrime.c` and `SumPrime.cpp`.

Both programs compute the sum of all primes below 1,000,000 by trial
division and print the sum and the elapsed time.  This file gives a shallow
embedding of both implementations and proves the documented properties.

Machine-arithmetic conventions of the embedding:
* C `int` values are embedded as `Int`; every value that occurs in a run
  (loop counters up to 1,000,000, candidates, divisors) is far below
  `2^31`, so unbounded integers model `int` arithmetic exactly.
* The C accumulator `long long sum` is embedded as `Int`; all values that
  occur are below `2^36` (proved below), so no wrap-around is dropped.
* The loop bound `i <= sqrt(n)` compares `(double) i` with
  `sqrt((double) n)`.  For `0 ≤ n < 2^53` the conversion to `double` is
  exact and IEEE-754 `sqrt` is correctly rounded, so the comparison holds
  exactly when `i ≤ ⌊√n⌋`; the bound is therefore embedded as
  `i ≤ Nat.sqrt n`.
-/

/-- The trial-division loop of `is_prime` in `SumPrime.c`
(`for (int i = 2; i <= sqrt(n); i++) if (n % i == 0) return 0; return 1;`),
embedded over `Nat` for `n ≥ 2` (all quantities are nonnegative there).
The last argument is fuel bounding the remaining iterations; the loop
itself exits once `i` exceeds `Nat.sqrt n`, and every caller passes enough
fuel (fuel independence is proved below).  Returns the C `int` result. -/
def trialLoopC (n : Nat) : Nat → Nat → Int
  | _, 0 => 1
  | i, f + 1 =>
    if i ≤ Nat.sqrt n then
      (if n % i = 0 then 0 else trialLoopC n (i + 1) f)
    else 1

/-- The trial-division loop of `is_prime` in `SumPrime.cpp`; identical to
the C loop except that it returns `bool` (`false`/`true`) instead of
`int` (`0`/`1`). -/
def trialLoopCpp (n : Nat) : Nat → Nat → Bool
  | _, 0 => true
  | i, f + 1 =>
    if i ≤ Nat.sqrt n then
      (if n % i = 0 then false else trialLoopCpp n (i + 1) f)
    else true

/-- `int is_prime(int n)` from `SumPrime.c`: returns `0` if `n <= 1`,
otherwise trial-divides by every `i` with `2 ≤ i ≤ ⌊√n⌋`.  For `n ≥ 2`
the loop works on nonnegative values, hence on `n.toNat`. -/
def is_prime_c (n : Int) : Int :=
  if n ≤ 1 then 0 else trialLoopC n.toNat 2 n.toNat

/-- `bool is_prime(int n)` from `SumPrime.cpp`; same algorithm as the C
version with `bool` results. -/
def is_prime_cpp (n : Int) : Bool :=
  if n ≤ 1 then false else trialLoopCpp n.toNat 2 n.toNat

/-- The summation loop of `main` in `SumPrime.c`
(`for (int i = 2; i < 1000000; i++) if (is_prime(i)) sum += i;`):
`sumLoop_c fuel i sum` runs the loop from counter value `i` with current
accumulator `sum`.  The C `if` tests the `int` result for nonzeroness. -/
def sumLoop_c : Nat → Int → Int → Int
  | 0, _, sum => sum
  | f + 1, i, sum =>
    if i < 1000000 then
      sumLoop_c f (i + 1) (if is_prime_c i ≠ 0 then sum + i else sum)
    else sum

/-- The summation loop of `main` in `SumPrime.cpp`; identical to the C
loop with the `bool` primality test. -/
def sumLoop_cpp : Nat → Int → Int → Int
  | 0, _, sum => sum
  | f + 1, i, sum =>
    if i < 1000000 then
      sumLoop_cpp f (i + 1) (if is_prime_cpp i then sum + i else sum)
    else sum

/-- The final value of `sum` in `SumPrime.c`: the loop starting from
`i = 2`, `sum = 0` (1,000,000 units of fuel cover the 999,998 iterations
plus the final failing test). -/
def sum_c : Int := sumLoop_c 1000000 2 0

/-- The final value of `sum` in `SumPrime.cpp`. -/
def sum_cpp : Int := sumLoop_cpp 1000000 2 0

/-! ### Kernel-evaluable variants

The equation compiler realises the recursions above through `brecOn`,
which the kernel cannot reduce efficiently.  For the handful of concrete
evaluations needed below we restate the loops directly with `Nat.rec`
(and with the bound `i ≤ Nat.sqrt n` replaced by the equivalent
`i * i ≤ n`, since `Nat.sqrt` is defined by well-founded recursion and
does not reduce in the kernel).  Each variant is proved equal to the
corresponding embedding. -/

/-- Forces a `Nat` argument to a literal (by recursor case analysis on it)
before passing it on; semantically `force f k = f k`. -/
def force {α : Sort u} (f : Nat → α) (k : Nat) : α :=
  Nat.rec (motive := fun _ => α) (f 0) (fun p _ => f (p + 1)) k

theorem force_eq {α : Sort u} (f : Nat → α) (k : Nat) : force f k = f k := by
  cases k <;> rfl

/-- `Nat.rec` form of the C++ trial-division loop, testing `i * i ≤ n`
instead of `i ≤ Nat.sqrt n`. -/
def trialLoopE (n : Nat) (fuel : Nat) : Nat → Bool :=
  Nat.rec (motive := fun _ => Nat → Bool)
    (fun _ => true)
    (fun _ ih i =>
      cond (Nat.ble (i * i) n)
        (cond (Nat.beq (n % i) 0) false (force ih (i + 1)))
        true)
    fuel

/-- `Nat.rec` form of `is_prime` over `Nat` arguments. -/
def isPrimeE (n : Nat) : Bool :=
  cond (Nat.ble n 1) false (trialLoopE n n 2)

theorem trialLoopE_zero (n i : Nat) : trialLoopE n 0 i = true := rfl

theorem trialLoopE_succ (n f i : Nat) :
    trialLoopE n (f + 1) i =
      cond (Nat.ble (i * i) n)
        (cond (Nat.beq (n % i) 0) false (force (trialLoopE n f) (i + 1)))
        true := rfl

/-- The `Nat.rec` loop agrees with the C++ loop: `i * i ≤ n` holds exactly
when `i ≤ Nat.sqrt n`. -/
theorem trialLoopE_eq (n : Nat) : ∀ f i, trialLoopE n f i = trialLoopCpp n i f := by
  intro f
  induction f with
  | zero => intro i; rfl
  | succ f ih =>
    intro i
    rw [trialLoopE_succ, trialLoopCpp, force_eq, ih]
    cases hb : Nat.ble (i * i) n with
    | false =>
      have hle : ¬ i ≤ Nat.sqrt n := fun h => by
        rw [Nat.ble_eq_true_of_le (Nat.le_sqrt.mp h)] at hb
        exact Bool.noConfusion hb
      rw [if_neg hle]; rfl
    | true =>
      have hle : i ≤ Nat.sqrt n := Nat.le_sqrt.mpr (Nat.le_of_ble_eq_true hb)
      rw [if_pos hle]
      cases hq : Nat.beq (n % i) 0 with
      | true => rw [if_pos (Nat.eq_of_beq_eq_true hq)]; rfl
      | false => rw [if_neg (Nat.ne_of_beq_eq_false hq)]; rfl

/-- `isPrimeE` computes `is_prime_cpp` on nonnegative arguments. -/
theorem isPrimeE_eq (m : Nat) : isPrimeE m = is_prime_cpp (m : Int) := by
  rw [isPrimeE, is_prime_cpp]
  cases hb : Nat.ble m 1 with
  | true =>
    have h1 : (m : Int) ≤ 1 := by exact_mod_cast Nat.le_of_ble_eq_true hb
    rw [if_pos h1]; rfl
  | false =>
    have h : ¬ m ≤ 1 := fun hc => by
      rw [Nat.ble_eq_true_of_le hc] at hb; exact Bool.noConfusion hb
    have h1 : ¬ (m : Int) ≤ 1 := by exact_mod_cast h
    rw [if_neg h1, Int.toNat_natCast]
    exact trialLoopE_eq m m 2

/-! ### Correctness of the trial-division loop -/

/-- Loop correctness: with enough fuel, the loop starting at `i` accepts
exactly when no candidate divisor in `[i, √n]` divides `n`. -/
theorem trialLoopCpp_correct (n : Nat) :
    ∀ f i, 1 ≤ i → Nat.sqrt n < i + f →
      (trialLoopCpp n i f = true ↔ ∀ j, i ≤ j → j ≤ Nat.sqrt n → ¬ (j ∣ n)) := by
  intro f
  induction f with
  | zero =>
    intro i _ hfuel
    simp only [trialLoopCpp]
    constructor
    · intro _ j hij hjs _
      omega
    · intro _; trivial
  | succ f ih =>
    intro i hi hfuel
    rw [trialLoopCpp]
    by_cases hle : i ≤ Nat.sqrt n
    · rw [if_pos hle]
      by_cases hmod : n % i = 0
      · rw [if_pos hmod]
        constructor
        · intro hb; exact Bool.noConfusion hb
        · intro hall
          exact (hall i (le_refl i) hle (Nat.dvd_of_mod_eq_zero hmod)).elim
      · rw [if_neg hmod]
        rw [ih (i + 1) (by omega) (by omega)]
        constructor
        · intro h j hij hjs hdvd
          rcases Nat.eq_or_lt_of_le hij with rfl | hlt
          · exact hmod (Nat.mod_eq_zero_of_dvd hdvd)
          · exact h j hlt hjs hdvd
        · intro h j hij hjs
          exact h j (by omega) hjs
    · rw [if_neg hle]
      constructor
      · intro _ j hij hjs
        omega
      · intro _; rfl

/-- Fuel irrelevance: any two sufficient fuel values give the same loop
result (the loop terminates after at most `√n - i + 1` iterations). -/
theorem trialLoopCpp_fuel (n : Nat) (f g i : Nat) (hi : 1 ≤ i)
    (hf : Nat.sqrt n < i + f) (hg : Nat.sqrt n < i + g) :
    trialLoopCpp n i f = trialLoopCpp n i g := by
  have h1 := trialLoopCpp_correct n f i hi hf
  have h2 := trialLoopCpp_correct n g i hi hg
  cases hb : trialLoopCpp n i f with
  | true => exact ((h2.mpr (h1.mp hb)).symm)
  | false =>
    cases hc : trialLoopCpp n i g with
    | true => rw [← hb]; exact (h1.mpr (h2.mp hc))
    | false => rfl

/-- Characterisation of `is_prime` on arguments above 1, over `Nat`
divisors. -/
theorem is_prime_cpp_char (n : Int) (h : 1 < n) :
    is_prime_cpp n = true ↔
      ∀ j : Nat, 2 ≤ j → j ≤ Nat.sqrt n.toNat → ¬ (j ∣ n.toNat) := by
  rw [is_prime_cpp, if_neg (by omega)]
  have hs : Nat.sqrt n.toNat < 2 + n.toNat := by
    have h1 : 2 ≤ n.toNat := by omega
    have := Nat.sqrt_le_self n.toNat
    omega
  exact trialLoopCpp_correct n.toNat n.toNat 2 (by omega) hs

/-- The C loop returns `1`/`0` exactly where the C++ loop returns
`true`/`false`. -/
theorem trialLoopC_eq (n : Nat) :
    ∀ f i, trialLoopC n i f = if trialLoopCpp n i f then 1 else 0 := by
  intro f
  induction f with
  | zero => intro i; rfl
  | succ f ih =>
    intro i
    rw [trialLoopC, trialLoopCpp]
    by_cases hle : i ≤ Nat.sqrt n
    · rw [if_pos hle, if_pos hle]
      by_cases hmod : n % i = 0
      · rw [if_pos hmod, if_pos hmod]; rfl
      · rw [if_neg hmod, if_neg hmod, ih]
    · rw [if_neg hle, if_neg hle]; rfl

/-- The two `is_prime` implementations agree pointwise. -/
theorem is_prime_c_eq (n : Int) :
    is_prime_c n = if is_prime_cpp n then 1 else 0 := by
  rw [is_prime_c, is_prime_cpp]
  by_cases h : n ≤ 1
  · rw [if_pos h, if_pos h]; rfl
  · rw [if_neg h, if_neg h, trialLoopC_eq]

/-- The two summation loops agree from any state. -/
theorem sumLoop_c_eq : ∀ (f : Nat) (i sum : Int),
    sumLoop_c f i sum = sumLoop_cpp f i sum := by
  intro f
  induction f with
  | zero => intro i sum; rfl
  | succ f ih =>
    intro i sum
    rw [sumLoop_c, sumLoop_cpp]
    by_cases h : i < 1000000
    · rw [if_pos h, if_pos h, ih]
      congr 1
      rw [is_prime_c_eq]
      cases hb : is_prime_cpp i <;> simp [hb]
    · rw [if_neg h, if_neg h]

/-! ### Driver semantics: the loop computes a finite sum -/

/-- The contribution of candidate `n` to the sum: `n` if the primality
test accepts it, `0` otherwise (as a natural number; candidates are
nonnegative). -/
def contrib (n : Nat) : Nat := if is_prime_cpp (n : Int) then n else 0

/-- The accumulator value of the summation loop when the counter reaches
`k` (for `2 ≤ k ≤ 1,000,000`): the sum of the contributions of all
candidates already processed. -/
def accState (k : Nat) : Int := ((∑ n ∈ Finset.Ico 2 k, contrib n : Nat) : Int)

/-- The loop body of the summation driver
(`if (is_prime(i)) sum += i;`). -/
def sumStep (sum i : Int) : Int := if is_prime_cpp i then sum + i else sum

theorem sumLoop_cpp_step (f : Nat) (i sum : Int) :
    sumLoop_cpp (f + 1) i sum =
      if i < 1000000 then sumLoop_cpp f (i + 1) (sumStep sum i) else sum := rfl

/-- Running the summation loop from counter `m` with enough fuel adds the
contributions of all remaining candidates to the accumulator. -/
theorem sumLoop_cpp_eq : ∀ (f m : Nat) (sum : Int), 1000000 ≤ m + f →
    sumLoop_cpp f (m : Int) sum =
      sum + ((∑ n ∈ Finset.Ico m 1000000, contrib n : Nat) : Int) := by
  intro f
  induction f with
  | zero =>
    intro m sum hm
    rw [Finset.Ico_eq_empty (by omega)]
    simp [sumLoop_cpp]
  | succ f ih =>
    intro m sum hm
    rw [sumLoop_cpp]
    by_cases h : (m : Int) < 1000000
    · have hmn : m < 1000000 := by exact_mod_cast h
      rw [if_pos h]
      have hcast : ((m : Int)) + 1 = ((m + 1 : Nat) : Int) := by push_cast; ring
      rw [hcast, ih (m + 1) _ (by omega)]
      rw [Finset.sum_eq_sum_Ico_succ_bot hmn contrib]
      rw [contrib]
      by_cases hp : is_prime_cpp (m : Int)
      · rw [if_pos hp, if_pos hp]
        push_cast
        ring
      · rw [if_neg hp, if_neg hp]
        push_cast
        ring
    · have hmn : ¬ m < 1000000 := by exact_mod_cast h
      rw [if_neg h, Finset.Ico_eq_empty (by omega)]
      simp

/-- The C++ driver's final sum is the sum of all contributions over
`[2, 1,000,000)`. -/
theorem sum_cpp_eq_sum :
    sum_cpp = ((∑ n ∈ Finset.Ico 2 1000000, contrib n : Nat) : Int) := by
  have h := sumLoop_cpp_eq 1000000 2 0 (by omega)
  simpa using h

/-- The accumulator is exactly the loop's state: starting value `0`, one
`sumStep` per candidate. -/
theorem accState_step (k : Nat) (h2 : 2 ≤ k) :
    accState (k + 1) = sumStep (accState k) (k : Int) := by
  rw [accState, accState, sumStep, Finset.sum_Ico_succ_top h2, contrib]
  by_cases hp : is_prime_cpp (k : Int)
  · rw [if_pos hp, if_pos hp]; push_cast; ring
  · rw [if_neg hp, if_neg hp]; push_cast; ring

/-! ### Claim C2: characterisation of the primality test -/

/-- C2: for every integer `n > 1`, the primality test returns true if and
only if no integer `i` with `2 ≤ i ≤ ⌊√n⌋` evenly divides `n`. -/
theorem prime_test_iff_no_divisor (n : Int) (h : 1 < n) :
    is_prime_cpp n = true ↔
      ¬ ∃ i : Int, 2 ≤ i ∧ i ≤ (⌊Real.sqrt (n.toNat : ℝ)⌋₊ : Int) ∧ i ∣ n := by
  rw [Real.nat_floor_real_sqrt_eq_nat_sqrt, is_prime_cpp_char n h]
  have hn : ((n.toNat : Int)) = n := Int.toNat_of_nonneg (by omega)
  constructor
  · intro hall ⟨i, h2i, his, hid⟩
    have hi0 : (0 : Int) ≤ i := by omega
    have hj : i = ((i.toNat : Nat) : Int) := (Int.toNat_of_nonneg hi0).symm
    refine hall i.toNat (by omega) (by omega) ?_
    have : ((i.toNat : Nat) : Int) ∣ ((n.toNat : Nat) : Int) := by
      rw [hn, ← hj]; exact hid
    exact_mod_cast this
  · intro hne j hj2 hjs hdvd
    refine hne ⟨(j : Int), by exact_mod_cast hj2, by exact_mod_cast hjs, ?_⟩
    have : ((j : Nat) : Int) ∣ ((n.toNat : Nat) : Int) := Int.natCast_dvd_natCast.mpr hdvd
    rwa [hn] at this

/-- Witness for C2 at `n = 7`. -/
theorem prime_test_iff_no_divisor_witness :
    (1 : Int) < 7 ∧
      (is_prime_cpp 7 = true ↔
        ¬ ∃ i : Int, 2 ≤ i ∧ i ≤ (⌊Real.sqrt ((7 : Int).toNat : ℝ)⌋₊ : Int) ∧ i ∣ 7) :=
  ⟨by norm_num, prime_test_iff_no_divisor 7 (by norm_num)⟩

/-! ### Claim C3: nonpositive inputs and 1 are rejected -/

/-- C3: for every integer `n ≤ 1` (negative, zero or one) both
implementations of the primality test reject: the C++ one returns
`false` and the C one returns `0`. -/
theorem is_prime_nonpos_false (n : Int) (h : n ≤ 1) :
    is_prime_cpp n = false ∧ is_prime_c n = 0 :=
  ⟨by rw [is_prime_cpp, if_pos h], by rw [is_prime_c, if_pos h]⟩

/-- Witness for C3 at `n = -7`. -/
theorem is_prime_nonpos_false_witness :
    (-7 : Int) ≤ 1 ∧ (is_prime_cpp (-7) = false ∧ is_prime_c (-7) = 0) :=
  ⟨by norm_num, is_prime_nonpos_false (-7) (by norm_num)⟩

/-! ### Claim C4: the perfect square 961 = 31² is composite -/

/-- C4: the primality test classifies `961 = 31 * 31` as composite in
both implementations (the divisor `31 = √961` lies exactly on the loop
bound). -/
theorem is_prime_961_false :
    is_prime_cpp 961 = false ∧ is_prime_c 961 = 0 ∧ (31 : Int) * 31 = 961 := by
  have hb : is_prime_cpp 961 = false := by
    have h1 : ((961 : Nat) : Int) = (961 : Int) := by norm_num
    rw [← h1, ← isPrimeE_eq]
    rfl
  refine ⟨hb, ?_, by norm_num⟩
  rw [is_prime_c_eq, hb]
  rfl

/-! ### Claim C5: boundary candidates 999999 and 999983 -/

set_option maxRecDepth 100000 in
/-- C5: the composite `999999` contributes nothing to the sum while the
prime `999983` (a candidate of the iterated range `[2, 1,000,000)`)
contributes itself. -/
theorem boundary_candidates :
    is_prime_cpp 999999 = false ∧ contrib 999999 = 0 ∧
      is_prime_cpp 999983 = true ∧ contrib 999983 = 999983 ∧
      999983 ∈ Finset.Ico 2 1000000 := by
  have h9 : is_prime_cpp (999999 : Int) = false := by
    have h := isPrimeE_eq 999999
    norm_num at h
    rw [← h]
    rfl
  have h3 : is_prime_cpp (999983 : Int) = true := by
    have h := isPrimeE_eq 999983
    norm_num at h
    rw [← h]
    rfl
  refine ⟨h9, ?_, h3, ?_, ?_⟩
  · simp [contrib, h9]
  · simp [contrib, h3]
  · simp

/-! ### Claim C8: the C and C++ implementations are equivalent -/

/-- C8: the C and the C++ implementation compute the same result: the two
`is_prime` functions agree on every integer input (`1`/`0` standing for
`true`/`false`), and the two summation drivers produce the same final
sum. -/
theorem c_cpp_equivalent :
    (∀ n : Int, is_prime_c n = if is_prime_cpp n then 1 else 0) ∧
      sum_c = sum_cpp :=
  ⟨is_prime_c_eq, sumLoop_c_eq 1000000 2 0⟩

/-! ### Claim C10: the trial-division loop terminates -/

/-- C10: the trial-division loop needs only finitely many iterations:
increasing the fuel beyond the amount `is_prime` supplies never changes
the loop's result, because the loop index grows past `√n` and the loop
exits.  (In particular the embedded `is_prime` is a total function.) -/
theorem trial_division_terminates (n : Int) (f : Nat) (hf : n.toNat ≤ f) :
    trialLoopCpp n.toNat 2 f = trialLoopCpp n.toNat 2 n.toNat := by
  have hs : Nat.sqrt n.toNat ≤ n.toNat := Nat.sqrt_le_self n.toNat
  exact trialLoopCpp_fuel n.toNat f n.toNat 2 (by omega) (by omega) (by omega)

/-- Witness for C10 at `n = 10`, `f = 2000`. -/
theorem trial_division_terminates_witness :
    (10 : Int).toNat ≤ 2000 ∧
      trialLoopCpp (10 : Int).toNat 2 2000 = trialLoopCpp (10 : Int).toNat 2 (10 : Int).toNat :=
  ⟨by norm_num, trial_division_terminates 10 2000 (by norm_num)⟩

/-! ### Claim C7: the accumulator is monotonically non-decreasing -/

/-- The accumulator at the start of the loop is `0`. -/
theorem accState_two : accState 2 = 0 := by
  rw [accState, Finset.Ico_self]
  rfl

/-- Each contribution is non-negative, so the accumulator never
decreases. -/
theorem accState_mono (k : Nat) : accState k ≤ accState (k + 1) := by
  rw [accState, accState]
  by_cases h2 : 2 ≤ k
  · rw [Finset.sum_Ico_succ_top h2]
    exact_mod_cast Nat.le_add_right _ _
  · interval_cases k <;> simp [accState]

/-- C7: across the summation loop the accumulator starts at `0`, evolves
by one loop-body step (`sumStep`) per candidate, and never decreases. -/
theorem accumulator_monotone (k : Nat) (h2 : 2 ≤ k) (hk : k < 1000000) :
    accState 2 = 0 ∧ accState (k + 1) = sumStep (accState k) (k : Int) ∧
      accState k ≤ accState (k + 1) :=
  ⟨accState_two, accState_step k h2, accState_mono k⟩

/-- Witness for C7 at `k = 10`. -/
theorem accumulator_monotone_witness :
    (2 ≤ 10 ∧ 10 < 1000000) ∧
      (accState 2 = 0 ∧ accState (10 + 1) = sumStep (accState 10) ((10 : Nat) : Int) ∧
        accState 10 ≤ accState (10 + 1)) :=
  ⟨⟨by norm_num, by norm_num⟩, accumulator_monotone 10 (by norm_num) (by norm_num)⟩

/-! ### Claim C6: the format of the second output line

The second line of `SumPrime.c` is produced by
`printf("Time: %.2f seconds\n", t)` and the one of `SumPrime.cpp` by
`cout << "Time: " << elapsed.count() << " seconds\n"`.  The printed
`double` is modelled by its exact rational value `t ≥ 0`.  `%.2f` prints
the value rounded to hundredths with exactly two digits after the decimal
point.  The C++ stream insertion uses the default `std::ostream` state:
`defaultfloat` notation with precision 6, i.e. `%g` semantics -- six
significant digits with trailing fractional zeros removed -- so it does
not in general print two decimal places. -/

/-- The decimal digits of `x` (most significant first) padded with
leading zeros to width `w`. -/
def digitsPadded (w x : Nat) : List Nat :=
  (List.range w).map fun i => x / 10 ^ (w - 1 - i) % 10

/-- Removes trailing zero digits (as `%g` formatting does). -/
def stripTrailingZeros (l : List Nat) : List Nat :=
  (l.reverse.dropWhile fun d => d == 0).reverse

/-- Upward search for the decimal exponent: `expUp f t = ⌊log10 t⌋` for
`1 ≤ t < 10^f` (written with `Nat.rec` so that it unfolds by `rfl`). -/
def expUp : Nat → ℚ → ℤ :=
  Nat.rec (motive := fun _ => ℚ → ℤ) (fun _ => 0)
    (fun _ ih t => if t < 10 then 0 else ih (t / 10) + 1)

/-- Downward search for the decimal exponent: `expDown f t = ⌊log10 t⌋`
for `10^(-f) ≤ t < 1`. -/
def expDown : Nat → ℚ → ℤ :=
  Nat.rec (motive := fun _ => ℚ → ℤ) (fun _ => 0)
    (fun _ ih t => if 1 ≤ t then 0 else ih (t * 10) - 1)

/-- `⌊log10 t⌋` for positive `t` in the range of IEEE-754 doubles
(`10^-400 < t < 10^400` amply covers it); fuel-bounded so that it is
kernel-computable. -/
def decExp (t : ℚ) : ℤ := if 1 ≤ t then expUp 400 t else expDown 400 t

/-- Modelled from the C++ standard library: the mantissa/exponent
decomposition used when printing a positive `double` with precision 6:
`t` rounds to `m * 10 ^ (e - 5)` with `100000 ≤ m < 1000000`. -/
def sixDigitMantissa (t : ℚ) : ℤ × ℤ :=
  let e := decExp t
  let m := round (t * (10 : ℚ) ^ ((5 : ℤ) - e))
  if m < 1000000 then (m, e) else (100000, e + 1)

/-- Modelled from the C++ standard library: `std::ostream` default
insertion of a nonnegative `double` (precision 6, `defaultfloat`),
decomposed as integer part, fractional digit list and decimal exponent
(the exponent is nonzero only in the scientific regime `e < -4` or
`e ≥ 6`). -/
def cppDefaultParts (t : ℚ) : Nat × List Nat × ℤ :=
  if t ≤ 0 then (0, [], 0)
  else
    let me := sixDigitMantissa t
    let m := me.1.toNat
    let e := me.2
    if 0 ≤ e ∧ e < 6 then
      (m / 10 ^ (5 - e.toNat), stripTrailingZeros (digitsPadded (5 - e.toNat) (m % 10 ^ (5 - e.toNat))), 0)
    else if -4 ≤ e ∧ e < 0 then
      (0, stripTrailingZeros (List.replicate (-(e + 1)).toNat 0 ++ digitsPadded 6 m), 0)
    else
      (m / 10 ^ 5, stripTrailingZeros (digitsPadded 5 (m % 10 ^ 5)), e)

/-- Renders a digit list. -/
def digitsStr (l : List Nat) : String := String.join (l.map fun d => toString d)

/-- Renders the scientific-notation suffix (empty in the fixed regime). -/
def expSuffix (e : ℤ) : String :=
  if e = 0 then ""
  else (if e < 0 then "e-" else "e+") ++ (if e.natAbs < 10 then "0" else "") ++ toString e.natAbs

/-- The second output line of `SumPrime.cpp`
(`cout << "Time: " << elapsed.count() << " seconds\n"`) for an elapsed
time of `t` seconds. -/
def cppTimeLine (t : ℚ) : String :=
  "Time: " ++ toString (cppDefaultParts t).1 ++
    (if (cppDefaultParts t).2.1 = [] then "" else "." ++ digitsStr (cppDefaultParts t).2.1) ++
    expSuffix (cppDefaultParts t).2.2 ++ " seconds"

/-- Modelled from the C standard library: `%.2f` formatting of a
nonnegative `double` of exact value `t`: the value rounded to hundredths,
split into integer part and exactly two fractional digits. -/
def printfFrac2 (t : ℚ) : Nat × List Nat :=
  ((round (t * 100)).toNat / 100,
    [(round (t * 100)).toNat % 100 / 10, (round (t * 100)).toNat % 10])

/-- The second output line of `SumPrime.c`
(`printf("Time: %.2f seconds\n", ...)`) for an elapsed time of `t`
seconds. -/
def cTimeLine (t : ℚ) : String :=
  "Time: " ++ toString (printfFrac2 t).1 ++ "." ++ digitsStr (printfFrac2 t).2 ++ " seconds"

/-- C6 fails for the C++ implementation: at elapsed time `1/8` seconds
(an exactly representable double) the C++ second line shows three decimal
places, not two. -/
theorem cpp_time_line_three_decimals :
    cppTimeLine (1 / 8) = "Time: 0.125 seconds" ∧
      ((cppDefaultParts (1 / 8)).2.1).length = 3 ∧
      ((cppDefaultParts (1 / 8)).2.1).length ≠ 2 := by
  have e400 : expDown 400 (1 / 8 : ℚ) =
      if 1 ≤ (1 / 8 : ℚ) then 0 else expDown 399 ((1 / 8 : ℚ) * 10) - 1 := rfl
  have e399 : expDown 399 ((1 / 8 : ℚ) * 10) =
      if 1 ≤ ((1 / 8 : ℚ) * 10) then 0 else expDown 398 ((1 / 8 : ℚ) * 10 * 10) - 1 := rfl
  have h1 : decExp (1 / 8 : ℚ) = -1 := by
    rw [decExp, if_neg (by norm_num), e400, if_neg (by norm_num), e399,
      if_pos (by norm_num)]
    norm_num
  have h2 : sixDigitMantissa (1 / 8 : ℚ) = (125000, -1) := by
    rw [sixDigitMantissa, h1]
    norm_num [round_eq]
  have h3 : cppDefaultParts (1 / 8 : ℚ) = (0, [1, 2, 5], 0) := by
    rw [cppDefaultParts, if_neg (by norm_num : ¬ (1 / 8 : ℚ) ≤ 0), h2]
    decide
  refine ⟨?_, by rw [h3]; decide, by rw [h3]; decide⟩
  rw [cppTimeLine, h3]
  rfl

/-- C6, amended: the `C` implementation always prints the second line in
the shape `Time: <value> seconds` with exactly two digits after the
decimal point; the C++ implementation prints the same shape but with
default stream formatting, which does not fix the number of decimal
places. -/
theorem c_time_line_two_decimals (t : ℚ) :
    ((printfFrac2 t).2).length = 2 ∧
      cTimeLine t =
        "Time: " ++ (toString (printfFrac2 t).1 ++ "." ++ digitsStr (printfFrac2 t).2) ++
          " seconds" ∧
      cppTimeLine t =
        "Time: " ++ (toString (cppDefaultParts t).1 ++
          (if (cppDefaultParts t).2.1 = [] then "" else "." ++ digitsStr (cppDefaultParts t).2.1) ++
          expSuffix (cppDefaultParts t).2.2) ++ " seconds" := by
  refine ⟨rfl, ?_, ?_⟩
  · rw [cTimeLine]
    simp [String.append_assoc]
  · rw [cppTimeLine]
    simp [String.append_assoc]

/-! ### Claim C1: the exact value of the sum

The kernel cannot run the 5·10⁷ trial-division steps of a direct
evaluation, so the sum is established through a verified sieve encoded in
big-integer arithmetic: a bitmask of the composite numbers below 10⁶ is
assembled from geometric series (one division each), primes are its
complement, and the weighted bit-sum is extracted with popcount
identities.  Every arithmetic identity used is proved; the kernel only
evaluates a few thousand GMP operations. -/

/-- `gSum w K = Σ_{k<K} 2^(w·k)`: the mask with bits at the multiples of
`w` below `w·K`. -/
def gSum (w : Nat) : Nat → Nat
  | 0 => 0
  | K + 1 => 2 ^ (w * K) + gSum w K

theorem gSum_lt (w : Nat) (hw : 1 ≤ w) : ∀ K, gSum w K < 2 ^ (w * K)
  | 0 => by simp [gSum]
  | K + 1 => by
    rw [gSum]
    have h1 := gSum_lt w hw K
    have hpow : (2 : Nat) ^ (w * (K + 1)) = 2 ^ (w * K) * 2 ^ w := by
      rw [Nat.mul_succ, Nat.pow_add]
    have h2 : (2 : Nat) ≤ 2 ^ w := by
      calc (2 : Nat) = 2 ^ 1 := by norm_num
      _ ≤ 2 ^ w := Nat.pow_le_pow_right (by norm_num) hw
    have h3 : 2 ^ (w * K) * 2 ≤ 2 ^ (w * K) * 2 ^ w :=
      Nat.mul_le_mul_left _ h2
    omega

theorem testBit_gSum (w : Nat) (hw : 1 ≤ w) :
    ∀ K n, Nat.testBit (gSum w K) n = true ↔ (w ∣ n ∧ n < w * K) := by
  intro K
  induction K with
  | zero => intro n; simp [gSum]
  | succ K ih =>
    intro n
    rw [gSum, show (2:Nat) ^ (w * K) + gSum w K = 2 ^ (w * K) * 1 + gSum w K by ring]
    rw [Nat.testBit_mul_pow_two_add 1 (gSum_lt w hw K) n]
    by_cases hn : n < w * K
    · rw [if_pos hn, ih n]
      have hwk : w * K ≤ w * (K + 1) := Nat.mul_le_mul_left w (Nat.le_succ K)
      constructor
      · exact fun ⟨h1, h2⟩ => ⟨h1, by omega⟩
      · exact fun ⟨h1, _⟩ => ⟨h1, hn⟩
    · rw [if_neg hn]
      constructor
      · intro h1
        have h2 : n - w * K = 0 := Nat.testBit_one_eq_true_iff_self_eq_zero.mp h1
        have h3 : n = w * K := by omega
        subst h3
        exact ⟨Dvd.intro K rfl, by rw [Nat.mul_succ]; omega⟩
      · rintro ⟨⟨q, rfl⟩, hlt⟩
        have hKq : w * K ≤ w * q := by omega
        have h1 : K ≤ q := Nat.le_of_mul_le_mul_left hKq (by omega)
        have h2 : q < K + 1 := Nat.lt_of_mul_lt_mul_left hlt
        have hq : q = K := by omega
        subst hq
        simp

theorem gSum_succ' (w K : Nat) : gSum w (K + 1) = 1 + 2 ^ w * gSum w K := by
  induction K with
  | zero => simp [gSum]
  | succ K ih =>
    calc gSum w (K + 1 + 1) = 2 ^ (w * (K + 1)) + gSum w (K + 1) := by
          simp only [gSum]
    _ = 2 ^ (w * (K + 1)) + (1 + 2 ^ w * gSum w K) := by rw [ih]
    _ = 1 + 2 ^ w * (2 ^ (w * K) + gSum w K) := by
          rw [Nat.mul_succ, Nat.pow_add]; ring
    _ = 1 + 2 ^ w * gSum w (K + 1) := by simp only [gSum]

/-- The multiplication-free evaluation form of `gSum`. -/
def gMask (w K : Nat) : Nat := ((1 <<< (w * K)) - 1) / ((1 <<< w) - 1)

theorem gSum_mul_pred (w K : Nat) : (2 ^ w - 1) * gSum w K + 1 = 2 ^ (w * K) := by
  induction K with
  | zero => simp [gSum]
  | succ K ih =>
    rw [gSum_succ', Nat.mul_add, Nat.mul_one]
    have h2 : (2 ^ w - 1) * (2 ^ w * gSum w K) = 2 ^ w * ((2 ^ w - 1) * gSum w K) := by
      ring
    have h3 : 2 ^ (w * (K + 1)) = 2 ^ w * 2 ^ (w * K) := by
      rw [Nat.mul_succ, Nat.pow_add]; ring
    have h4 : (1 : Nat) ≤ 2 ^ w := Nat.one_le_two_pow
    have h5 : 2 ^ w * ((2 ^ w - 1) * gSum w K + 1) = 2 ^ w * 2 ^ (w * K) := by rw [ih]
    have h6 : 2 ^ w * ((2 ^ w - 1) * gSum w K + 1) =
        2 ^ w * ((2 ^ w - 1) * gSum w K) + 2 ^ w := by ring
    omega

theorem gMask_eq (w K : Nat) (hw : 1 ≤ w) : gMask w K = gSum w K := by
  rw [gMask, Nat.one_shiftLeft, Nat.one_shiftLeft]
  have h1 := gSum_mul_pred w K
  have h2 : (1 : Nat) < 2 ^ w := by
    calc (1 : Nat) < 2 ^ 1 := by norm_num
    _ ≤ 2 ^ w := Nat.pow_le_pow_right (by norm_num) hw
  have h3 : 2 ^ (w * K) - 1 = (2 ^ w - 1) * gSum w K := by omega
  rw [h3]
  exact Nat.mul_div_cancel_left _ (by omega)

/-- The mask of the proper multiples of `d` below 1,000,000: bits at
`d·k` for `k ≥ 2` (a sieve row).  `(1000000 + d - 1) / d` is the number
of multiples `d·k < 1000000` with `k ≥ 0`. -/
def multMask (d : Nat) : Nat :=
  gMask d ((1000000 + d - 1) / d - 2) <<< (2 * d)

theorem testBit_multMask (d : Nat) (hd : 1 ≤ d) (n : Nat) :
    Nat.testBit (multMask d) n = true ↔
      (d ∣ n ∧ 2 * d ≤ n ∧ n < d * ((1000000 + d - 1) / d)) := by
  rw [multMask, gMask_eq _ _ hd, Nat.testBit_shiftLeft]
  rcases Nat.lt_or_ge n (2 * d) with hn | hn
  · constructor
    · intro h
      rw [Bool.and_eq_true, decide_eq_true_eq] at h
      omega
    · intro ⟨_, h2, _⟩
      omega
  · rw [show (decide (n ≥ 2 * d) && Nat.testBit (gSum d ((1000000 + d - 1) / d - 2)) (n - 2 * d)) =
        Nat.testBit (gSum d ((1000000 + d - 1) / d - 2)) (n - 2 * d) by
      rw [decide_eq_true (by omega : n ≥ 2 * d), Bool.true_and]]
    rw [testBit_gSum d hd _ _]
    set K := (1000000 + d - 1) / d with hK
    constructor
    · intro ⟨h1, h2⟩
      have hdvd : d ∣ n := by
        have : d ∣ 2 * d := Dvd.intro 2 (by ring)
        have h3 : d ∣ (n - 2 * d) + 2 * d := Nat.dvd_add h1 this
        rwa [Nat.sub_add_cancel hn] at h3
      refine ⟨hdvd, hn, ?_⟩
      rcases Nat.lt_or_ge K 2 with hK2 | hK2
      · have h4 : K - 2 = 0 := by omega
        rw [h4] at h2
        simp [Nat.mul_zero] at h2
      · have hsplit : d * ((K - 2) + 2) = d * (K - 2) + d * 2 := Nat.mul_add d (K - 2) 2
        have hKe : (K - 2) + 2 = K := by omega
        rw [hKe] at hsplit
        omega
    · intro ⟨h1, _, h3⟩
      constructor
      · exact (Nat.dvd_sub' h1 (Dvd.intro 2 (by ring)))
      · have hK2 : 2 ≤ K := by
          by_contra hc
          have h4 : K ≤ 1 := by omega
          have h5 : d * K ≤ d * 1 := Nat.mul_le_mul_left d h4
          omega
        have hsplit : d * ((K - 2) + 2) = d * (K - 2) + d * 2 := Nat.mul_add d (K - 2) 2
        have hKe : (K - 2) + 2 = K := by omega
        rw [hKe] at hsplit
        omega

/-- The composite mask: the union of the sieve rows for every divisor
`2 ≤ d ≤ D` (written with `Nat.rec` so that the kernel can evaluate it at
`D = 999`). -/
def compMask : Nat → Nat :=
  Nat.rec (motive := fun _ => Nat) 0
    (fun d ih => cond (Nat.ble 2 (d + 1)) (ih ||| multMask (d + 1)) 0)

theorem compMask_succ (d : Nat) :
    compMask (d + 1) = cond (Nat.ble 2 (d + 1)) (compMask d ||| multMask (d + 1)) 0 := rfl

theorem testBit_compMask : ∀ D n, Nat.testBit (compMask D) n = true ↔
    ∃ d, 2 ≤ d ∧ d ≤ D ∧ d ∣ n ∧ 2 * d ≤ n ∧ n < d * ((1000000 + d - 1) / d) := by
  intro D
  induction D with
  | zero =>
    intro n
    constructor
    · intro h
      rw [show compMask 0 = 0 from rfl] at h
      simp at h
    · intro ⟨d, h1, h2, _⟩; omega
  | succ D ih =>
    intro n
    rcases Nat.lt_or_ge D 1 with hD | hD
    · have hD0 : D = 0 := by omega
      subst hD0
      constructor
      · intro h
        rw [show compMask (0 + 1) = 0 from rfl] at h
        simp at h
      · intro ⟨d, h1, h2, _⟩; omega
    · rw [compMask_succ, show Nat.ble 2 (D + 1) = true from Nat.ble_eq_true_of_le (by omega)]
      rw [cond_true, Nat.testBit_lor, Bool.or_eq_true, ih n, testBit_multMask (D + 1) (by omega) n]
      constructor
      · rintro (⟨d, h1, h2, h3⟩ | ⟨h1, h2, h3⟩)
        · exact ⟨d, h1, by omega, h3⟩
        · exact ⟨D + 1, by omega, by omega, h1, h2, h3⟩
      · rintro ⟨d, h1, h2, h3, h4, h5⟩
        rcases Nat.lt_or_ge d (D + 1) with hd | hd
        · exact Or.inl ⟨d, h1, by omega, h3, h4, h5⟩
        · have : d = D + 1 := by omega
          subst this
          exact Or.inr ⟨h3, h4, h5⟩

/-- Every bit of `multMask d` lies below 1,000,000. -/
theorem multMask_lt (d : Nat) (hd : 1 ≤ d) : multMask d < 2 ^ 1000000 := by
  apply Nat.lt_pow_two_of_testBit
  intro i hi
  by_contra hc
  have hb : Nat.testBit (multMask d) i = true := by
    cases hb2 : Nat.testBit (multMask d) i
    · exact (hc hb2).elim
    · rfl
  obtain ⟨hdvd, _, hlt⟩ := (testBit_multMask d hd i).mp hb
  obtain ⟨j, rfl⟩ := hdvd
  set K := (1000000 + d - 1) / d with hK
  have h1 : j < K := Nat.lt_of_mul_lt_mul_left hlt
  have h2 : d * j ≤ d * (K - 1) := Nat.mul_le_mul_left d (by omega)
  have h3 : d * ((K - 1) + 1) = d * (K - 1) + d * 1 := Nat.mul_add d (K - 1) 1
  have h4 : (K - 1) + 1 = K := by
    have hK1 : 0 < K := Nat.div_pos (by omega) (by omega)
    omega
  rw [h4] at h3
  have h5 : d * K ≤ 1000000 + d - 1 := by
    rw [hK, Nat.mul_comm]
    exact Nat.div_mul_le_self _ _
  omega

/-- Every bit of `compMask D` lies below 1,000,000. -/
theorem compMask_lt : ∀ D, compMask D < 2 ^ 1000000 := by
  intro D
  induction D with
  | zero => exact Nat.pos_pow_of_pos _ (by norm_num)
  | succ D ih =>
    rw [compMask_succ]
    cases hb : Nat.ble 2 (D + 1) with
    | false => exact Nat.pos_pow_of_pos _ (by norm_num)
    | true =>
      rw [cond_true]
      exact Nat.or_lt_two_pow ih (multMask_lt (D + 1) (by omega))

/-- The candidate mask: bits `2 ≤ n < 1,000,000`. -/
def candMask : Nat := (1 <<< 1000000) - 4

/-- The prime mask: a candidate below 1,000,000 is prime exactly when it
is not composite. -/
def primesMask : Nat := candMask ^^^ compMask 999

theorem candMask_shift : candMask = (2 ^ 999998 - 1) <<< 2 := by
  rw [candMask, Nat.one_shiftLeft, Nat.shiftLeft_eq]
  have h1 : (2 : Nat) ^ 1000000 = 2 ^ 999998 * 2 ^ 2 := by rw [← Nat.pow_add]
  have h2 : (1 : Nat) ≤ 2 ^ 999998 := Nat.one_le_two_pow
  omega

theorem testBit_candMask (n : Nat) :
    Nat.testBit candMask n = true ↔ (2 ≤ n ∧ n < 1000000) := by
  rw [candMask_shift, Nat.testBit_shiftLeft, Bool.and_eq_true, decide_eq_true_eq,
    Nat.testBit_two_pow_sub_one, decide_eq_true_eq]
  omega

theorem candMask_lt : candMask < 2 ^ 1000000 := by
  rw [candMask, Nat.one_shiftLeft]
  have h2 : (4 : Nat) ≤ 2 ^ 1000000 := by
    calc (4 : Nat) = 2 ^ 2 := by norm_num
    _ ≤ 2 ^ 1000000 := Nat.pow_le_pow_right (by norm_num) (by norm_num)
  omega

theorem primesMask_lt : primesMask < 2 ^ 1000000 :=
  Nat.xor_lt_two_pow candMask_lt (compMask_lt 999)

/-- `√999999 = 999`: candidate divisors of candidates below 1,000,000
never exceed 999. -/
theorem sqrt_999999 : Nat.sqrt 999999 = 999 := by
  apply Nat.le_antisymm
  · have h := Nat.sqrt_lt.mpr (show 999999 < 1000 * 1000 by norm_num)
    omega
  · exact Nat.le_sqrt.mpr (by norm_num)

theorem sqrt_le_999 (n : Nat) (hn : n < 1000000) : Nat.sqrt n ≤ 999 := by
  have h := Nat.sqrt_le_sqrt (show n ≤ 999999 by omega)
  rw [sqrt_999999] at h
  exact h

/-- Ceiling inequality: `d · ⌈1000000 / d⌉ ≥ 1000000`. -/
theorem ceil_mul_ge (d : Nat) (hd : 1 ≤ d) :
    1000000 ≤ d * ((1000000 + d - 1) / d) := by
  have h1 := Nat.div_add_mod (1000000 + d - 1) d
  have h2 : (1000000 + d - 1) % d < d := Nat.mod_lt _ (by omega)
  omega

/-- The sieve condition agrees with the trial-division condition: for a
candidate `2 ≤ n < 1,000,000`, having a proper divisor pair is the same
as having a divisor in `[2, √n]`. -/
theorem small_factor_iff (n : Nat) (h2 : 2 ≤ n) (hlt : n < 1000000) :
    (∃ d, 2 ≤ d ∧ d ≤ 999 ∧ d ∣ n ∧ 2 * d ≤ n ∧ n < d * ((1000000 + d - 1) / d)) ↔
      (∃ j, 2 ≤ j ∧ j ≤ Nat.sqrt n ∧ j ∣ n) := by
  constructor
  · rintro ⟨d, hd2, _, hdvd, hdn, _⟩
    have hd0 : 0 < d := by omega
    have hmul : d * (n / d) = n := Nat.mul_div_cancel' hdvd
    have hq2 : 2 ≤ n / d := (Nat.le_div_iff_mul_le hd0).mpr (by omega)
    refine ⟨min d (n / d), by omega, ?_, ?_⟩
    · apply Nat.le_sqrt.mpr
      calc min d (n / d) * min d (n / d) ≤ d * (n / d) :=
        Nat.mul_le_mul (Nat.min_le_left _ _) (Nat.min_le_right _ _)
      _ = n := hmul
    · rcases Nat.le_total d (n / d) with hmin | hmin
      · rw [Nat.min_eq_left hmin]; exact hdvd
      · rw [Nat.min_eq_right hmin]
        exact ⟨d, (Nat.div_mul_cancel hdvd).symm⟩
  · rintro ⟨j, hj2, hjs, hjdvd⟩
    have hj999 : j ≤ 999 := le_trans hjs (sqrt_le_999 n hlt)
    have hjj : j * j ≤ n := Nat.le_sqrt.mp hjs
    refine ⟨j, hj2, hj999, hjdvd, ?_, ?_⟩
    · calc 2 * j ≤ j * j := Nat.mul_le_mul_right j hj2
      _ ≤ n := hjj
    · have := ceil_mul_ge j (by omega)
      omega

/-- The prime mask is faithful: bit `n` of `primesMask` is set exactly
when the embedded primality test accepts `n`, for every candidate
`n < 1,000,000`. -/
theorem testBit_primesMask (n : Nat) (hn : n < 1000000) :
    Nat.testBit primesMask n = is_prime_cpp (n : Int) := by
  rw [primesMask, Nat.testBit_xor]
  rcases Nat.lt_or_ge n 2 with h2 | h2
  · have hc : Nat.testBit candMask n = false := by
      cases hb : Nat.testBit candMask n
      · rfl
      · obtain ⟨h3, _⟩ := (testBit_candMask n).mp hb
        omega
    have hm : Nat.testBit (compMask 999) n = false := by
      cases hb : Nat.testBit (compMask 999) n
      · rfl
      · obtain ⟨d, hd2, _, _, hdn, _⟩ := (testBit_compMask 999 n).mp hb
        omega
    have hp : is_prime_cpp (n : Int) = false := by
      rw [is_prime_cpp, if_pos (by exact_mod_cast (by omega : n ≤ 1))]
    rw [hc, hm, hp]
    rfl
  · have hc : Nat.testBit candMask n = true := (testBit_candMask n).mpr ⟨h2, hn⟩
    rw [hc]
    have hchar := is_prime_cpp_char (n : Int) (by exact_mod_cast (by omega : 1 < n))
    rw [Int.toNat_natCast] at hchar
    cases hb : Nat.testBit (compMask 999) n with
    | true =>
      obtain hsm := (testBit_compMask 999 n).mp hb
      obtain ⟨j, hj2, hjs, hjdvd⟩ := (small_factor_iff n h2 hn).mp hsm
      have hp : is_prime_cpp (n : Int) = false := by
        cases hp2 : is_prime_cpp (n : Int)
        · rfl
        · exact ((hchar.mp hp2) j hj2 hjs hjdvd).elim
      rw [hp]
      rfl
    | false =>
      have hp : is_prime_cpp (n : Int) = true := by
        apply hchar.mpr
        intro j hj2 hjs hjdvd
        have hsm := (small_factor_iff n h2 hn).mpr ⟨j, hj2, hjs, hjdvd⟩
        rw [(testBit_compMask 999 n).mpr hsm] at hb
        exact Bool.noConfusion hb
      rw [hp]
      rfl

/-! ### Popcount via field sums

`fieldSum w x` is the sum of the base-`2^w` digits of `x`.  The SWAR
halving identity lets the kernel compute the popcount of a megabit
number with a handful of big-integer operations, and the digit-sum
congruence turns the final field row into one `mod`. -/

/-- Sum of the `w`-bit fields (base-`2^w` digits) of `x`. -/
def fieldSum (w : Nat) (x : Nat) : Nat :=
  if h : x = 0 ∨ w = 0 then 0
  else x % 2 ^ w + fieldSum w (x >>> w)
termination_by x
decreasing_by
  rw [Nat.shiftRight_eq_div_pow]
  push_neg at h
  exact Nat.div_lt_self (by omega) (Nat.one_lt_two_pow_iff.mpr h.2)

theorem fieldSum_zero (w : Nat) : fieldSum w 0 = 0 := by
  rw [fieldSum]
  simp

theorem fieldSum_unfold (w x : Nat) (hw : 1 ≤ w) :
    fieldSum w x = x % 2 ^ w + fieldSum w (x >>> w) := by
  rcases Nat.eq_zero_or_pos x with rfl | hx
  · rw [fieldSum_zero]
    simp [fieldSum_zero]
  · rw [fieldSum]
    rw [dif_neg (by omega)]

theorem fieldSum_small (w x : Nat) (hw : 1 ≤ w) (hx : x < 2 ^ w) :
    fieldSum w x = x := by
  rw [fieldSum_unfold w x hw, Nat.mod_eq_of_lt hx, Nat.shiftRight_eq_div_pow,
    Nat.div_eq_of_lt hx, fieldSum_zero]
  omega

/-- Field sums split along any field-aligned cut. -/
theorem fieldSum_split (w : Nat) (hw : 1 ≤ w) :
    ∀ k a b, a < 2 ^ (w * k) →
      fieldSum w (a + b * 2 ^ (w * k)) = fieldSum w a + fieldSum w b := by
  intro k
  induction k with
  | zero =>
    intro a b ha
    have ha0 : a = 0 := by simpa using ha
    subst ha0
    simp [fieldSum_zero]
  | succ k ih =>
    intro a b ha
    have hpow : (2 : Nat) ^ (w * (k + 1)) = 2 ^ (w * k) * 2 ^ w := by
      rw [Nat.mul_succ, Nat.pow_add]
    have hw0 : (0 : Nat) < 2 ^ w := Nat.pos_pow_of_pos _ (by norm_num)
    have hmod : (a + b * 2 ^ (w * (k + 1))) % 2 ^ w = a % 2 ^ w := by
      rw [hpow, show b * (2 ^ (w * k) * 2 ^ w) = b * 2 ^ (w * k) * 2 ^ w by ring,
        Nat.add_mul_mod_self_right]
    have hdiv : (a + b * 2 ^ (w * (k + 1))) >>> w = a >>> w + b * 2 ^ (w * k) := by
      rw [Nat.shiftRight_eq_div_pow, Nat.shiftRight_eq_div_pow, hpow,
        show b * (2 ^ (w * k) * 2 ^ w) = b * 2 ^ (w * k) * 2 ^ w by ring,
        Nat.add_mul_div_right _ _ hw0]
    have hasmall : a >>> w < 2 ^ (w * k) := by
      rw [Nat.shiftRight_eq_div_pow]
      have h1 : a < 2 ^ w * 2 ^ (w * k) := by
        rw [← Nat.pow_add, show w + w * k = w * (k + 1) by ring]
        exact ha
      exact Nat.div_lt_of_lt_mul h1
    rw [fieldSum_unfold w _ hw, hmod, hdiv, ih _ b hasmall,
      fieldSum_unfold w a hw]
    omega

/-- The 1-bit field sum is the popcount. -/
theorem fieldSum_one_bits : ∀ K x, x < 2 ^ K →
    fieldSum 1 x = ∑ n ∈ Finset.range K, (Nat.testBit x n).toNat := by
  intro K
  induction K with
  | zero =>
    intro x hx
    have : x = 0 := by simpa using hx
    subst this
    simp [fieldSum_zero]
  | succ K ih =>
    intro x hx
    rw [fieldSum_unfold 1 x (le_refl 1), Finset.sum_range_succ']
    have hdivlt : x >>> 1 < 2 ^ K := by
      rw [Nat.shiftRight_eq_div_pow, pow_one]
      rw [pow_succ'] at hx
      exact Nat.div_lt_of_lt_mul hx
    rw [ih _ hdivlt]
    have hbit0 : (Nat.testBit x 0).toNat = x % 2 ^ 1 := by
      rw [Nat.testBit_zero, pow_one]
      rcases Nat.mod_two_eq_zero_or_one x with h | h <;> simp [h]
    have hbits : ∀ n, Nat.testBit (x >>> 1) n = Nat.testBit x (n + 1) := by
      intro n
      rw [Nat.testBit_shiftRight, Nat.add_comm]
    simp only [hbits]
    omega

theorem fieldSum_one_le (K x : Nat) (hx : x < 2 ^ K) : fieldSum 1 x ≤ K := by
  rw [fieldSum_one_bits K x hx]
  calc ∑ n ∈ Finset.range K, (Nat.testBit x n).toNat ≤ ∑ _n ∈ Finset.range K, 1 :=
    Finset.sum_le_sum (fun n _ => Bool.toNat_le _)
  _ = K := by simp

/-- The SWAR mask: `D` blocks of width `2w`, each with its low `w` bits
set. -/
def mAlt (w : Nat) : Nat → Nat
  | 0 => 0
  | D + 1 => (2 ^ w - 1) + mAlt w D * 2 ^ (2 * w)

/-- Closed form of `mAlt` for kernel evaluation. -/
def mAltC (w D : Nat) : Nat := gMask (2 * w) D * ((1 <<< w) - 1)

theorem mAlt_eq_gSum (w : Nat) : ∀ D, mAlt w D = (2 ^ w - 1) * gSum (2 * w) D
  | 0 => by simp [mAlt, gSum]
  | D + 1 => by
    rw [mAlt, gSum_succ', Nat.mul_add, Nat.mul_one, mAlt_eq_gSum w D]
    ring

theorem mAltC_eq (w D : Nat) (hw : 1 ≤ w) : mAltC w D = mAlt w D := by
  rw [mAltC, gMask_eq _ _ (by omega), mAlt_eq_gSum, Nat.one_shiftLeft]
  ring

/-- Bound: twice the SWAR mask stays below the block budget. -/
theorem mAlt_bound (w : Nat) (hw : 1 ≤ w) :
    ∀ D, 2 * mAlt w D < 2 ^ (2 * w * D)
  | 0 => by simp [mAlt]
  | D + 1 => by
    rw [mAlt]
    have ih := mAlt_bound w hw D
    have hA : (2 : Nat) ≤ 2 ^ w := by
      calc (2 : Nat) = 2 ^ 1 := by norm_num
      _ ≤ 2 ^ w := Nat.pow_le_pow_right (by norm_num) hw
    have hpow : (2 : Nat) ^ (2 * w * (D + 1)) = 2 ^ (2 * w * D) * 2 ^ (2 * w) := by
      rw [Nat.mul_succ, Nat.pow_add]
    have hsq : (2 : Nat) ^ (2 * w) = 2 ^ w * 2 ^ w := by
      rw [Nat.two_mul, Nat.pow_add]
    have h4 : (2 : Nat) * (2 ^ w) ≤ 2 ^ w * 2 ^ w := Nat.mul_le_mul_right _ hA
    -- 2 * ((2^w - 1) + mAlt·2^{2w}) = 2·(2^w - 1) + (2·mAlt)·2^{2w}
    --   < 2·2^w + 2^{2wD}·2^{2w} ≤ 2^{2w(D+1)} since 2·2^w ≤ 2^{2w} and
    --   the remaining gap (2^{2w} ≥ 2·2^w ≥ 2·(2^w-1)+2) absorbs the head.
    have key : 2 * (mAlt w D * 2 ^ (2 * w)) + 2 ^ (2 * w) ≤ 2 ^ (2 * w * D) * 2 ^ (2 * w) := by
      have h5 : 2 * mAlt w D + 1 ≤ 2 ^ (2 * w * D) := ih
      calc 2 * (mAlt w D * 2 ^ (2 * w)) + 2 ^ (2 * w) = (2 * mAlt w D + 1) * 2 ^ (2 * w) := by
            ring
      _ ≤ 2 ^ (2 * w * D) * 2 ^ (2 * w) := Nat.mul_le_mul_right _ h5
    omega

theorem testBit_mAlt (w : Nat) (hw : 1 ≤ w) :
    ∀ D n, Nat.testBit (mAlt w D) n = true ↔ (n < 2 * w * D ∧ n % (2 * w) < w) := by
  intro D
  induction D with
  | zero => intro n; simp [mAlt]
  | succ D ih =>
    intro n
    rw [mAlt, Nat.add_comm ((2:Nat) ^ w - 1) _,
      show mAlt w D * 2 ^ (2 * w) + (2 ^ w - 1) = 2 ^ (2 * w) * mAlt w D + (2 ^ w - 1) by ring]
    have hlt : (2 : Nat) ^ w - 1 < 2 ^ (2 * w) := by
      have h1 : (2 : Nat) ^ w ≤ 2 ^ (2 * w) := Nat.pow_le_pow_right (by norm_num) (by omega)
      have h2 : (0 : Nat) < 2 ^ w := Nat.pos_pow_of_pos _ (by norm_num)
      omega
    rw [Nat.testBit_mul_pow_two_add _ hlt n]
    by_cases hn : n < 2 * w
    · rw [if_pos hn, Nat.testBit_two_pow_sub_one, decide_eq_true_eq]
      have hmod : n % (2 * w) = n := Nat.mod_eq_of_lt hn
      have hD1 : 2 * w ≤ 2 * w * (D + 1) := by
        calc 2 * w = 2 * w * 1 := by ring
        _ ≤ 2 * w * (D + 1) := Nat.mul_le_mul_left _ (by omega)
      constructor
      · intro h; exact ⟨by omega, by omega⟩
      · intro ⟨_, h2⟩; omega
    · rw [if_neg hn, ih (n - 2 * w)]
      have hsub : (n - 2 * w) % (2 * w) = n % (2 * w) := by
        conv_rhs => rw [show n = (n - 2 * w) + 2 * w by omega]
        rw [Nat.add_mod_right]
      have hdist : 2 * w * (D + 1) = 2 * w * D + 2 * w := Nat.mul_succ _ _
      rw [hsub]
      omega

/-- Bitwise AND distributes over block-aligned decompositions. -/
theorem and_add_split (k a b c d : Nat) (ha : a < 2 ^ k) (hc : c < 2 ^ k) :
    (a + b * 2 ^ k) &&& (c + d * 2 ^ k) = (a &&& c) + (b &&& d) * 2 ^ k := by
  apply Nat.eq_of_testBit_eq
  intro j
  have h1 : a + b * 2 ^ k = 2 ^ k * b + a := by ring
  have h2 : c + d * 2 ^ k = 2 ^ k * d + c := by ring
  have h3 : (a &&& c) + (b &&& d) * 2 ^ k = 2 ^ k * (b &&& d) + (a &&& c) := by ring
  rw [h1, h2, h3, Nat.testBit_and,
    Nat.testBit_mul_pow_two_add _ ha j,
    Nat.testBit_mul_pow_two_add _ hc j,
    Nat.testBit_mul_pow_two_add _ (show a &&& c < 2 ^ k from lt_of_le_of_lt Nat.and_le_left ha) j]
  by_cases hj : j < k
  · rw [if_pos hj, if_pos hj, if_pos hj, Nat.testBit_and]
  · rw [if_neg hj, if_neg hj, if_neg hj, Nat.testBit_and]

theorem mAlt_succ_eq (w D : Nat) :
    mAlt w (D + 1) = (2 ^ w - 1) + mAlt w D * 2 ^ (2 * w) := rfl

/-- AND against the block mask splits into the first block and the rest. -/
theorem and_mAlt_succ (w D y : Nat) :
    y &&& mAlt w (D + 1) =
      ((y % 2 ^ (2 * w)) &&& (2 ^ w - 1)) + ((y >>> (2 * w)) &&& mAlt w D) * 2 ^ (2 * w) := by
  have hlt : (2 : Nat) ^ w - 1 < 2 ^ (2 * w) := by
    have h1 : (2 : Nat) ^ w ≤ 2 ^ (2 * w) := Nat.pow_le_pow_right (by norm_num) (by omega)
    have h2 : (0 : Nat) < 2 ^ w := Nat.pos_pow_of_pos _ (by norm_num)
    omega
  have hy : y % 2 ^ (2 * w) + (y >>> (2 * w)) * 2 ^ (2 * w) = y := by
    rw [Nat.shiftRight_eq_div_pow]
    have h := Nat.mod_add_div y (2 ^ (2 * w))
    have h2 : y / 2 ^ (2 * w) * 2 ^ (2 * w) = 2 ^ (2 * w) * (y / 2 ^ (2 * w)) :=
      Nat.mul_comm _ _
    omega
  conv_lhs => rw [← hy, mAlt_succ_eq]
  exact and_add_split (2 * w) _ _ _ _ (Nat.mod_lt y (Nat.pos_pow_of_pos _ (by norm_num))) hlt

/-- The SWAR halving round: masked folding of `w`-fields into `2w`-fields
preserves the field sum. -/
theorem fieldSum_round (w : Nat) (hw : 1 ≤ w) :
    ∀ D x, x < 2 ^ (2 * w * D) →
      fieldSum w x = fieldSum (2 * w) ((x &&& mAlt w D) + ((x >>> w) &&& mAlt w D)) := by
  intro D
  induction D with
  | zero =>
    intro x hx
    have hx0 : x = 0 := by simpa using hx
    subst hx0
    simp [mAlt, fieldSum_zero]
  | succ D ih =>
    intro x hx
    have hQpos : (0 : Nat) < 2 ^ (2 * w) := Nat.pos_pow_of_pos _ (by norm_num)
    have hwpos : (0 : Nat) < 2 ^ w := Nat.pos_pow_of_pos _ (by norm_num)
    have hA2 : (2 : Nat) ≤ 2 ^ w := by
      calc (2 : Nat) = 2 ^ 1 := by norm_num
      _ ≤ 2 ^ w := Nat.pow_le_pow_right (by norm_num) hw
    have hQsq : (2 : Nat) ^ (2 * w) = 2 ^ w * 2 ^ w := by
      rw [Nat.two_mul, Nat.pow_add]
    -- the first block and the remaining blocks of x
    have hlo_lt : x % 2 ^ (2 * w) < 2 ^ (2 * w) := Nat.mod_lt x hQpos
    have hhi_lt : x >>> (2 * w) < 2 ^ (2 * w * D) := by
      rw [Nat.shiftRight_eq_div_pow]
      apply Nat.div_lt_of_lt_mul
      rw [← Nat.pow_add, show 2 * w + 2 * w * D = 2 * w * (D + 1) by ring]
      exact hx
    -- the two masked summands, decomposed along the first block
    have hand1 : x &&& mAlt w (D + 1) =
        (x % 2 ^ (2 * w)) % 2 ^ w + ((x >>> (2 * w)) &&& mAlt w D) * 2 ^ (2 * w) := by
      rw [and_mAlt_succ, Nat.and_pow_two_sub_one_eq_mod, Nat.mod_mod_of_dvd]
      exact ⟨2 ^ w, by rw [hQsq]⟩
    have hmod_sr : (x >>> w) % 2 ^ (2 * w) % 2 ^ w = (x % 2 ^ (2 * w)) >>> w := by
      rw [Nat.mod_mod_of_dvd _ ⟨2 ^ w, by rw [hQsq]⟩, Nat.shiftRight_eq_div_pow,
        Nat.shiftRight_eq_div_pow, Nat.div_mod_eq_mod_mul_div, ← Nat.pow_add,
        show w + w = 2 * w by ring]
    have hsr_sr : (x >>> w) >>> (2 * w) = (x >>> (2 * w)) >>> w := by
      rw [← Nat.shiftRight_add, ← Nat.shiftRight_add, Nat.add_comm]
    have hand2 : (x >>> w) &&& mAlt w (D + 1) =
        (x % 2 ^ (2 * w)) >>> w + ((x >>> (2 * w)) >>> w &&& mAlt w D) * 2 ^ (2 * w) := by
      rw [and_mAlt_succ, Nat.and_pow_two_sub_one_eq_mod, hmod_sr, hsr_sr]
    -- the folded first block is a single 2w-field
    have hb1_lt : (x % 2 ^ (2 * w)) % 2 ^ w + (x % 2 ^ (2 * w)) >>> w < 2 ^ (2 * w) := by
      have h1 : (x % 2 ^ (2 * w)) % 2 ^ w < 2 ^ w := Nat.mod_lt _ hwpos
      have h2 : (x % 2 ^ (2 * w)) >>> w < 2 ^ w := by
        rw [Nat.shiftRight_eq_div_pow]
        exact Nat.div_lt_of_lt_mul (by rw [← hQsq]; exact hlo_lt)
      have h3 : (2 : Nat) * 2 ^ w ≤ 2 ^ w * 2 ^ w := Nat.mul_le_mul_right _ hA2
      omega
    -- assemble: the sum of the two masked values is block-structured
    have hassemble : (x &&& mAlt w (D + 1)) + ((x >>> w) &&& mAlt w (D + 1)) =
        ((x % 2 ^ (2 * w)) % 2 ^ w + (x % 2 ^ (2 * w)) >>> w) +
          (((x >>> (2 * w)) &&& mAlt w D) + ((x >>> (2 * w)) >>> w &&& mAlt w D)) *
            2 ^ (2 * w) := by
      rw [hand1, hand2]
      ring
    rw [hassemble]
    have hsplit2w : fieldSum (2 * w)
        (((x % 2 ^ (2 * w)) % 2 ^ w + (x % 2 ^ (2 * w)) >>> w) +
          (((x >>> (2 * w)) &&& mAlt w D) + ((x >>> (2 * w)) >>> w &&& mAlt w D)) *
            2 ^ (2 * w)) =
        fieldSum (2 * w) ((x % 2 ^ (2 * w)) % 2 ^ w + (x % 2 ^ (2 * w)) >>> w) +
          fieldSum (2 * w)
            (((x >>> (2 * w)) &&& mAlt w D) + ((x >>> (2 * w)) >>> w &&& mAlt w D)) := by
      have h := fieldSum_split (2 * w) (by omega) 1 _
        (((x >>> (2 * w)) &&& mAlt w D) + ((x >>> (2 * w)) >>> w &&& mAlt w D))
        (by rw [Nat.mul_one]; exact hb1_lt)
      rw [Nat.mul_one] at h
      exact h
    rw [hsplit2w, fieldSum_small (2 * w) _ (by omega) hb1_lt]
    -- left side: split x itself along the first block
    have hxsplit : fieldSum w x = fieldSum w (x % 2 ^ (2 * w)) + fieldSum w (x >>> (2 * w)) := by
      have hxs : x % 2 ^ (2 * w) + (x >>> (2 * w)) * 2 ^ (2 * w) = x := by
        rw [Nat.shiftRight_eq_div_pow]
        have h := Nat.mod_add_div x (2 ^ (2 * w))
        have h2 : x / 2 ^ (2 * w) * 2 ^ (2 * w) = 2 ^ (2 * w) * (x / 2 ^ (2 * w)) :=
          Nat.mul_comm _ _
        omega
      conv_lhs => rw [← hxs]
      have h := fieldSum_split w hw 2 (x % 2 ^ (2 * w)) (x >>> (2 * w))
        (by rw [show w * 2 = 2 * w by ring]; exact hlo_lt)
      rw [show (2 : Nat) ^ (w * 2) = 2 ^ (2 * w) by rw [show w * 2 = 2 * w by ring]] at h
      exact h
    have hlo_fs : fieldSum w (x % 2 ^ (2 * w)) =
        (x % 2 ^ (2 * w)) % 2 ^ w + (x % 2 ^ (2 * w)) >>> w := by
      rw [fieldSum_unfold w _ hw]
      have h2 : (x % 2 ^ (2 * w)) >>> w < 2 ^ w := by
        rw [Nat.shiftRight_eq_div_pow]
        exact Nat.div_lt_of_lt_mul (by rw [← hQsq]; exact hlo_lt)
      rw [fieldSum_small w _ hw h2]
    rw [hxsplit, hlo_fs, ih _ hhi_lt]

/-- The base-`2^w` digit sum is congruent to the number modulo
`2^w - 1`. -/
theorem fieldSum_modEq (w : Nat) (hw : 1 ≤ w) :
    ∀ x, x ≡ fieldSum w x [MOD 2 ^ w - 1] := by
  intro x
  induction x using Nat.strong_induction_on with
  | _ x ih =>
    rcases Nat.eq_zero_or_pos x with rfl | hx
    · rw [fieldSum_zero]
    · have hwpos : (1 : Nat) < 2 ^ w := by
        calc (1 : Nat) < 2 ^ 1 := by norm_num
        _ ≤ 2 ^ w := Nat.pow_le_pow_right (by norm_num) hw
      have hlt : x >>> w < x := by
        rw [Nat.shiftRight_eq_div_pow]
        exact Nat.div_lt_self hx hwpos
      have ihx := ih _ hlt
      have hpow : (2 : Nat) ^ w ≡ 1 [MOD 2 ^ w - 1] := by
        have : (2 : Nat) ^ w = (2 ^ w - 1) + 1 := by omega
        rw [this]
        exact (Nat.add_modEq_left).trans (Nat.ModEq.refl 1)
      calc x = 2 ^ w * (x >>> w) + x % 2 ^ w := by
            rw [Nat.shiftRight_eq_div_pow]
            have := Nat.div_add_mod x (2 ^ w)
            omega
      _ ≡ 1 * (fieldSum w (x >>> w)) + x % 2 ^ w [MOD 2 ^ w - 1] :=
            Nat.ModEq.add_right _ (Nat.ModEq.mul hpow ihx)
      _ = x % 2 ^ w + fieldSum w (x >>> w) := by ring
      _ = fieldSum w x := (fieldSum_unfold w x hw).symm

/-- Digit-sum extraction: when the digit sum is below the modulus it is
computed by a single `mod`. -/
theorem fieldSum_mod (w x : Nat) (hw : 1 ≤ w) (hfs : fieldSum w x < 2 ^ w - 1) :
    x % (2 ^ w - 1) = fieldSum w x := by
  have h := (fieldSum_modEq w hw x).symm
  rw [Nat.ModEq] at h
  rw [← h, Nat.mod_eq_of_lt hfs]

/-- One SWAR round as evaluated by the kernel (the argument is forced to
a literal before being used twice). -/
def swarRound (w m x : Nat) : Nat :=
  force (fun y => (y &&& m) + ((y >>> w) &&& m)) x

theorem swarRound_eq (w m x : Nat) :
    swarRound w m x = (x &&& m) + ((x >>> w) &&& m) := by
  rw [swarRound, force_eq]

/-- Popcount of a number below `2^(2^20)`: six SWAR rounds compress the
bits into 64-bit fields, and the digit-sum `mod` adds the fields. -/
def pc (x : Nat) : Nat :=
  swarRound 32 (mAltC 32 16384)
    (swarRound 16 (mAltC 16 32768)
      (swarRound 8 (mAltC 8 65536)
        (swarRound 4 (mAltC 4 131072)
          (swarRound 2 (mAltC 2 262144)
            (swarRound 1 (mAltC 1 524288) x))))) % 18446744073709551615

/-- One SWAR stage: field sums are preserved and the bound is kept. -/
theorem swar_step (w D : Nat) (hw : 1 ≤ w) (hD : 2 * w * D = 1048576)
    (x : Nat) (hx : x < 2 ^ 1048576) :
    fieldSum w x = fieldSum (2 * w) (swarRound w (mAlt w D) x) ∧
      swarRound w (mAlt w D) x < 2 ^ 1048576 := by
  rw [swarRound_eq]
  constructor
  · have h := fieldSum_round w hw D x (by rw [hD]; exact hx)
    exact h
  · have h2 := mAlt_bound w hw D
    rw [hD] at h2
    have ha : x &&& mAlt w D ≤ mAlt w D := Nat.and_le_right
    have hb : (x >>> w) &&& mAlt w D ≤ mAlt w D := Nat.and_le_right
    have hgen : ∀ P : Nat, 2 * mAlt w D < P →
        (x &&& mAlt w D) + ((x >>> w) &&& mAlt w D) < P := by
      intro P h2'
      omega
    exact hgen _ h2

theorem pc_eq (x : Nat) (hx : x < 2 ^ 1048576) : pc x = fieldSum 1 x := by
  rw [pc, mAltC_eq 1 524288 (by norm_num), mAltC_eq 2 262144 (by norm_num),
    mAltC_eq 4 131072 (by norm_num), mAltC_eq 8 65536 (by norm_num),
    mAltC_eq 16 32768 (by norm_num), mAltC_eq 32 16384 (by norm_num)]
  obtain ⟨e1, b1⟩ := swar_step 1 524288 (by norm_num) (by norm_num) x hx
  obtain ⟨e2, b2⟩ := swar_step 2 262144 (by norm_num) (by norm_num) _ b1
  obtain ⟨e3, b3⟩ := swar_step 4 131072 (by norm_num) (by norm_num) _ b2
  obtain ⟨e4, b4⟩ := swar_step 8 65536 (by norm_num) (by norm_num) _ b3
  obtain ⟨e5, b5⟩ := swar_step 16 32768 (by norm_num) (by norm_num) _ b4
  obtain ⟨e6, b6⟩ := swar_step 32 16384 (by norm_num) (by norm_num) _ b5
  norm_num at e1 e2 e3 e4 e5 e6
  have echain : fieldSum 1 x =
      fieldSum 64 (swarRound 32 (mAlt 32 16384)
        (swarRound 16 (mAlt 16 32768)
          (swarRound 8 (mAlt 8 65536)
            (swarRound 4 (mAlt 4 131072)
              (swarRound 2 (mAlt 2 262144)
                (swarRound 1 (mAlt 1 524288) x)))))) := by
    rw [e1, e2, e3, e4, e5, e6]
  have hbound : fieldSum 64 (swarRound 32 (mAlt 32 16384)
      (swarRound 16 (mAlt 16 32768)
        (swarRound 8 (mAlt 8 65536)
          (swarRound 4 (mAlt 4 131072)
            (swarRound 2 (mAlt 2 262144)
              (swarRound 1 (mAlt 1 524288) x)))))) < 2 ^ 64 - 1 := by
    rw [← echain]
    have h1 := fieldSum_one_le 1048576 x hx
    have h2 : (1048576 : Nat) < 2 ^ 64 - 1 := by norm_num
    omega
  have hmodlit : (18446744073709551615 : Nat) = 2 ^ 64 - 1 := by norm_num
  rw [hmodlit, fieldSum_mod 64 _ (by norm_num) hbound, ← echain]

/-- The mask of positions `n < 2^20` whose index has bit `t` set. -/
def Mt (t : Nat) : Nat := mAltC (1 <<< t) (1048576 >>> (t + 1)) <<< (1 <<< t)

theorem Mt_eq (t : Nat) (ht : t < 20) :
    Mt t = mAlt (2 ^ t) (2 ^ (19 - t)) <<< 2 ^ t := by
  rw [Mt, Nat.one_shiftLeft, mAltC_eq _ _ Nat.one_le_two_pow]
  have hD : (1048576 : Nat) >>> (t + 1) = 2 ^ (19 - t) := by
    rw [show (1048576 : Nat) = 2 ^ 20 by norm_num, Nat.shiftRight_eq_div_pow,
      Nat.pow_div (by omega) (by norm_num)]
    congr 1
    omega
  rw [hD]

/-- Index-bit criterion through division: bit `t` of `n` is set exactly
when the residue of `n` in its `2^(t+1)`-block lies in the upper half. -/
theorem testBit_iff_mod (t n : Nat) :
    Nat.testBit n t = true ↔ 2 ^ t ≤ n % (2 * 2 ^ t) := by
  rw [Nat.testBit_to_div_mod, decide_eq_true_eq]
  have h1 : n / 2 ^ t % 2 = n % (2 ^ t * 2) / 2 ^ t := Nat.div_mod_eq_mod_mul_div n (2 ^ t) 2
  rw [h1, show (2 : Nat) ^ t * 2 = 2 * 2 ^ t by ring]
  have hr : n % (2 * 2 ^ t) < 2 * 2 ^ t := Nat.mod_lt _ (by positivity)
  rcases Nat.lt_or_ge (n % (2 * 2 ^ t)) (2 ^ t) with hc | hc
  · rw [Nat.div_eq_of_lt hc]
    constructor
    · intro h; exact absurd h (by norm_num)
    · intro h; omega
  · have hge : 1 ≤ n % (2 * 2 ^ t) / 2 ^ t :=
      (Nat.le_div_iff_mul_le (by positivity)).mpr (by omega)
    have hlt2 : n % (2 * 2 ^ t) / 2 ^ t < 2 :=
      Nat.div_lt_of_lt_mul (by omega)
    constructor
    · intro _; exact hc
    · intro _; omega

theorem mod_flip (B m : Nat) (hB : 0 < B) :
    m % (2 * B) < B ↔ B ≤ (m + B) % (2 * B) := by
  have hr : m % (2 * B) < 2 * B := Nat.mod_lt _ (by omega)
  have h1 : (m + B) % (2 * B) = (m % (2 * B) + B) % (2 * B) := by
    rw [Nat.add_mod, Nat.mod_eq_of_lt (show B < 2 * B by omega)]
  rw [h1]
  rcases Nat.lt_or_ge (m % (2 * B)) B with hc | hc
  · rw [Nat.mod_eq_of_lt (show m % (2 * B) + B < 2 * B by omega)]
    omega
  · have h2 : m % (2 * B) + B = (m % (2 * B) - B) + 1 * (2 * B) := by omega
    rw [h2, Nat.add_mul_mod_self_right,
      Nat.mod_eq_of_lt (show m % (2 * B) - B < 2 * B by omega)]
    omega

theorem testBit_Mt (t n : Nat) (ht : t < 20) :
    Nat.testBit (Mt t) n = true ↔ (n < 1048576 ∧ Nat.testBit n t = true) := by
  rw [Mt_eq t ht, Nat.testBit_shiftLeft, Bool.and_eq_true, decide_eq_true_eq,
    testBit_mAlt (2 ^ t) Nat.one_le_two_pow _ _, testBit_iff_mod]
  have hBD : 2 * 2 ^ t * 2 ^ (19 - t) = 1048576 := by
    rw [show 2 * 2 ^ t * 2 ^ (19 - t) = 2 * (2 ^ t * 2 ^ (19 - t)) by ring, ← Nat.pow_add,
      show t + (19 - t) = 19 by omega]
  rw [hBD]
  have hBpos : (0 : Nat) < 2 ^ t := Nat.pos_pow_of_pos t (by omega)
  have h2B : 2 * 2 ^ t = 2 ^ (t + 1) := by rw [pow_succ, Nat.mul_comm]
  have hle : 2 * 2 ^ t ≤ 1048576 := by
    rw [h2B, show (1048576 : Nat) = 2 ^ 20 by norm_num]
    exact Nat.pow_le_pow_right (by norm_num) (by omega)
  constructor
  · rintro ⟨hB, h1, h2⟩
    have hf := mod_flip (2 ^ t) (n - 2 ^ t) hBpos
    rw [show n - 2 ^ t + 2 ^ t = n from by omega] at hf
    refine ⟨?_, hf.mp h2⟩
    by_contra hn'
    push_neg at hn'
    have hdvd : 2 * 2 ^ t ∣ 1048576 - 2 * 2 ^ t := by
      rw [h2B, show (1048576 : Nat) = 2 ^ 20 by norm_num]
      exact Nat.dvd_sub' (pow_dvd_pow 2 (by omega)) dvd_rfl
    obtain ⟨k, hk⟩ := hdvd
    have hm : n - 2 ^ t = 2 * 2 ^ t * k + (2 ^ t + (n - 1048576)) := by
      rw [← hk]; omega
    rw [hm, Nat.mul_add_mod] at h2
    rw [Nat.mod_eq_of_lt (show 2 ^ t + (n - 1048576) < 2 * 2 ^ t by omega)] at h2
    omega
  · rintro ⟨hn, hbit⟩
    have hB : 2 ^ t ≤ n := le_trans hbit (Nat.mod_le _ _)
    have hf := mod_flip (2 ^ t) (n - 2 ^ t) hBpos
    rw [show n - 2 ^ t + 2 ^ t = n from by omega] at hf
    exact ⟨hB, by omega, hf.mpr hbit⟩

/-- Binary expansion of a natural number below `2 ^ T`. -/
theorem nat_eq_sum_bits (T : Nat) : ∀ n : Nat, n < 2 ^ T →
    n = ∑ t ∈ Finset.range T, 2 ^ t * (Nat.testBit n t).toNat := by
  induction T with
  | zero =>
    intro n hn
    have h0 : n = 0 := by omega
    subst h0
    simp
  | succ T ih =>
    intro n hn
    have hdiv : n / 2 < 2 ^ T := Nat.div_lt_of_lt_mul (by
      have h2 : (2 : Nat) ^ (T + 1) = 2 * 2 ^ T := by rw [pow_succ, Nat.mul_comm]
      omega)
    have h0 : 2 ^ 0 * (Nat.testBit n 0).toNat = n % 2 := by
      rw [Nat.testBit_zero]
      rcases Nat.mod_two_eq_zero_or_one n with h | h <;> rw [h] <;> simp
    rw [Finset.sum_range_succ', h0]
    have hsum : (∑ t ∈ Finset.range T, 2 ^ (t + 1) * (Nat.testBit n (t + 1)).toNat)
        = 2 * (n / 2) := by
      calc (∑ t ∈ Finset.range T, 2 ^ (t + 1) * (Nat.testBit n (t + 1)).toNat)
          = ∑ t ∈ Finset.range T, 2 * (2 ^ t * (Nat.testBit (n / 2) t).toNat) :=
            Finset.sum_congr rfl (fun t _ => by rw [Nat.testBit_succ, pow_succ]; ring)
        _ = 2 * ∑ t ∈ Finset.range T, 2 ^ t * (Nat.testBit (n / 2) t).toNat :=
            (Finset.mul_sum _ _ _).symm
        _ = 2 * (n / 2) := by rw [← ih (n / 2) hdiv]
    rw [hsum]
    omega

theorem contrib_eq_bit (n : Nat) (hn : n < 1000000) :
    contrib n = n * (Nat.testBit primesMask n).toNat := by
  rw [contrib, testBit_primesMask n hn]
  cases h : is_prime_cpp (n : Int) <;> simp [h]

/-- Dropping the unused candidates `0` and `1` from the summation range. -/
theorem sum_contrib_range :
    (∑ n ∈ Finset.Ico 2 1000000, contrib n) = ∑ n ∈ Finset.range 1000000, contrib n := by
  rw [Finset.range_eq_Ico,
    ← Finset.sum_Ico_consecutive contrib (Nat.zero_le 2)
      (show (2 : Nat) ≤ 1000000 from Nat.le_of_ble_eq_true rfl),
    show (∑ n ∈ Finset.Ico 0 2, contrib n) = 0 from rfl, Nat.zero_add]

/-- Extending the summation range to the power of two `2 ^ 20`: all higher
bits of the prime mask are clear, so the extra terms vanish. -/
theorem sum_bits_extend :
    (∑ n ∈ Finset.range 1000000, contrib n)
      = ∑ n ∈ Finset.range 1048576, n * (Nat.testBit primesMask n).toNat := by
  rw [Finset.sum_congr rfl (fun n hn => contrib_eq_bit n (Finset.mem_range.mp hn))]
  apply Finset.sum_subset
  · exact Finset.range_subset.mpr (by omega)
  · intro x _ hx
    rw [Finset.mem_range, not_lt] at hx
    have hbit : Nat.testBit primesMask x = false := by
      cases hb : Nat.testBit primesMask x
      · rfl
      · exfalso
        have h2 : 2 ^ x ≤ primesMask := Nat.testBit_implies_ge hb
        have h3 : primesMask < 2 ^ 1000000 := primesMask_lt
        have h4 : (2 : Nat) ^ 1000000 ≤ 2 ^ x := Nat.pow_le_pow_right (by norm_num) (by omega)
        exact absurd h2 (Nat.not_le.mpr (lt_of_lt_of_le h3 h4))
    rw [hbit]
    simp

/-- The weighted-popcount decomposition: the sum of the indices of the set
bits of the prime mask equals the sum over bit positions `t < 20` of
`2 ^ t` times the popcount of the mask restricted to indices with bit `t`
set. -/
theorem sum_bits_eq :
    (∑ n ∈ Finset.range 1048576, n * (Nat.testBit primesMask n).toNat)
      = ∑ t ∈ Finset.range 20, 2 ^ t * pc (primesMask &&& Mt t) := by
  have hand : ∀ t : Nat, primesMask &&& Mt t < 2 ^ 1048576 := by
    intro t
    have h1 : primesMask &&& Mt t ≤ primesMask := Nat.and_le_left
    have h2 : primesMask < 2 ^ 1000000 := primesMask_lt
    have h3 : (2 : Nat) ^ 1000000 ≤ 2 ^ 1048576 :=
      Nat.pow_le_pow_right (by norm_num) (by norm_num)
    exact lt_of_le_of_lt h1 (lt_of_lt_of_le h2 h3)
  have hterm : ∀ t ∈ Finset.range 20,
      2 ^ t * pc (primesMask &&& Mt t)
        = ∑ n ∈ Finset.range 1048576,
            2 ^ t * ((Nat.testBit n t).toNat * (Nat.testBit primesMask n).toNat) := by
    intro t ht
    rw [Finset.mem_range] at ht
    rw [pc_eq _ (hand t), fieldSum_one_bits 1048576 _ (hand t), Finset.mul_sum]
    refine Finset.sum_congr rfl ?_
    intro n hn
    rw [Finset.mem_range] at hn
    have hMtn : Nat.testBit (Mt t) n = Nat.testBit n t := by
      cases hb : Nat.testBit n t with
      | true => exact (testBit_Mt t n ht).mpr ⟨hn, hb⟩
      | false =>
        cases hb2 : Nat.testBit (Mt t) n with
        | false => rfl
        | true =>
          have hcontr := ((testBit_Mt t n ht).mp hb2).2
          rw [hb] at hcontr
          exact Bool.noConfusion hcontr
    rw [Nat.testBit_and, hMtn]
    cases Nat.testBit primesMask n <;> cases Nat.testBit n t <;> simp
  rw [Finset.sum_congr rfl hterm, Finset.sum_comm]
  refine Finset.sum_congr rfl ?_
  intro n hn
  rw [Finset.mem_range] at hn
  calc n * (Nat.testBit primesMask n).toNat
      = (∑ t ∈ Finset.range 20, 2 ^ t * (Nat.testBit n t).toNat)
          * (Nat.testBit primesMask n).toNat := by
        rw [← nat_eq_sum_bits 20 n (by omega)]
    _ = ∑ t ∈ Finset.range 20,
          2 ^ t * ((Nat.testBit n t).toNat * (Nat.testBit primesMask n).toNat) := by
        rw [Finset.sum_mul]
        exact Finset.sum_congr rfl (fun t _ => by ring)

/-! ### Kernel evaluation of the per-bit popcounts of the prime mask -/

set_option maxRecDepth 100000 in
theorem pcv0 : pc (primesMask &&& Mt 0) = 78497 := rfl

set_option maxRecDepth 100000 in
theorem pcv1 : pc (primesMask &&& Mt 1) = 39323 := rfl

set_option maxRecDepth 100000 in
theorem pcv2 : pc (primesMask &&& Mt 2) = 39292 := rfl

set_option maxRecDepth 100000 in
theorem pcv3 : pc (primesMask &&& Mt 3) = 39250 := rfl

set_option maxRecDepth 100000 in
theorem pcv4 : pc (primesMask &&& Mt 4) = 39273 := rfl

set_option maxRecDepth 100000 in
theorem pcv5 : pc (primesMask &&& Mt 5) = 39328 := rfl

set_option maxRecDepth 100000 in
theorem pcv6 : pc (primesMask &&& Mt 6) = 39186 := rfl

set_option maxRecDepth 100000 in
theorem pcv7 : pc (primesMask &&& Mt 7) = 39261 := rfl

set_option maxRecDepth 100000 in
theorem pcv8 : pc (primesMask &&& Mt 8) = 39150 := rfl

set_option maxRecDepth 100000 in
theorem pcv9 : pc (primesMask &&& Mt 9) = 39096 := rfl

set_option maxRecDepth 100000 in
theorem pcv10 : pc (primesMask &&& Mt 10) = 39364 := rfl

set_option maxRecDepth 100000 in
theorem pcv11 : pc (primesMask &&& Mt 11) = 39043 := rfl

set_option maxRecDepth 100000 in
theorem pcv12 : pc (primesMask &&& Mt 12) = 39191 := rfl

set_option maxRecDepth 100000 in
theorem pcv13 : pc (primesMask &&& Mt 13) = 39013 := rfl

set_option maxRecDepth 100000 in
theorem pcv14 : pc (primesMask &&& Mt 14) = 38443 := rfl

set_option maxRecDepth 100000 in
theorem pcv15 : pc (primesMask &&& Mt 15) = 38264 := rfl

set_option maxRecDepth 100000 in
theorem pcv16 : pc (primesMask &&& Mt 16) = 36880 := rfl

set_option maxRecDepth 100000 in
theorem pcv17 : pc (primesMask &&& Mt 17) = 36473 := rfl

set_option maxRecDepth 100000 in
theorem pcv18 : pc (primesMask &&& Mt 18) = 35942 := rfl

set_option maxRecDepth 100000 in
theorem pcv19 : pc (primesMask &&& Mt 19) = 35108 := rfl

/-- The exact value of the sum of the contributions of all candidates. -/
theorem sum_value : (∑ n ∈ Finset.Ico 2 1000000, contrib n) = 37550402023 := by
  rw [sum_contrib_range, sum_bits_extend, sum_bits_eq]
  norm_num [Finset.sum_range_succ, pcv0, pcv1, pcv2, pcv3, pcv4, pcv5, pcv6, pcv7, pcv8, pcv9, pcv10, pcv11, pcv12, pcv13, pcv14, pcv15, pcv16, pcv17, pcv18, pcv19]

/-! ### Claim C1: the final value of the summation driver -/

/-- C1: the summation driver, iterating every integer `i` from `2` to
`999999` inclusive and adding `i` to the accumulator whenever the
primality test accepts `i`, produces exactly `37550402023` as its final
sum — in both the C and the C++ embedding. -/
theorem driver_sum_value : sum_c = 37550402023 ∧ sum_cpp = 37550402023 := by
  have h : sum_cpp = 37550402023 := by
    rw [sum_cpp_eq_sum, sum_value]
    norm_num
  have hc : sum_c = sum_cpp := by
    rw [sum_c, sum_cpp, sumLoop_c_eq]
  exact ⟨hc.trans h, h⟩

/-! ### Claim C9: the accumulator never overflows a signed 64-bit integer -/

/-- C9: no signed 64-bit overflow occurs in the accumulator: every
intermediate value of the running sum over `[2, 1000000)` is between `0`
and the final value `37550402023`, which is below `2 ^ 36` and in
particular far below `2 ^ 63`, the bound of a 64-bit signed integer. -/
theorem no_overflow (k : Nat) (hk : k ≤ 1000000) :
    0 ≤ accState k ∧ accState k ≤ 37550402023 ∧
      accState k < 2 ^ 63 ∧ (37550402023 : Int) < 2 ^ 36 := by
  have hsub : Finset.Ico 2 k ⊆ Finset.Ico 2 1000000 :=
    Finset.Ico_subset_Ico le_rfl hk
  have hle : (∑ n ∈ Finset.Ico 2 k, contrib n)
      ≤ (∑ n ∈ Finset.Ico 2 1000000, contrib n) :=
    Finset.sum_le_sum_of_subset hsub
  rw [sum_value] at hle
  have h1 : accState k ≤ 37550402023 := by
    rw [accState]
    exact_mod_cast hle
  refine ⟨?_, h1, ?_, by norm_num⟩
  · rw [accState]
    exact Int.natCast_nonneg _
  · calc accState k ≤ 37550402023 := h1
      _ < 2 ^ 63 := by norm_num

theorem no_overflow_witness :
    (2 : Nat) ≤ 1000000 ∧
      (0 ≤ accState 2 ∧ accState 2 ≤ 37550402023 ∧
        accState 2 < 2 ^ 63 ∧ (37550402023 : Int) < 2 ^ 36) :=
  ⟨by norm_num, no_overflow 2 (by norm_num)⟩
